import Mathlib

/-!
Shallow embedding of the fixed-point reciprocal-square-root estimator in
`src/3-pipeline/csrc/rsqrt_fast.c` and the software arithmetic primitives it
depends on (`clz`, `udiv`, `umod`, `umul`, `mul32x32`,
`newton_step_q16_inline`, `rsqrt_table`, `rsqrt`).

Machine integers are modelled as `Nat` with explicit reduction `% 2^32`
wherever the C `uint32_t` / `unsigned long` arithmetic can wrap.  C shifts
`x << k` / `x >> k` become `(x * 2^k) % 2^32` / `x / 2^k`, the mask
`x & 0xFFFF` becomes `x % 65536`, and C unsigned subtraction `a - b` becomes
`(a + 2^32 - b) % 2^32`.  Bitwise OR is kept as `|||` exactly where the C
source uses `|`.
-/

/-- Embedding of `clz` (rsqrt_fast.c lines 41-61): branchless count of
leading zero bits of a 32-bit value.  Each C step
`c = (x < BOUND) << k; r += c; x <<= c;` becomes a `let` pair; the final
`r += x == 0` is the trailing `if`. -/
def clz (x : Nat) : Nat :=
  let c4 := (if x < 65536 then 1 else 0) * 16
  let x1 := (x * 2 ^ c4) % 4294967296
  let c3 := (if x1 < 16777216 then 1 else 0) * 8
  let x2 := (x1 * 2 ^ c3) % 4294967296
  let c2 := (if x2 < 268435456 then 1 else 0) * 4
  let x3 := (x2 * 2 ^ c2) % 4294967296
  let c1 := (if x3 < 1073741824 then 1 else 0) * 2
  let x4 := (x3 * 2 ^ c1) % 4294967296
  let c0 := if x4 < 2147483648 then 1 else 0
  let x5 := (x4 * 2 ^ c0) % 4294967296
  c4 + c3 + c2 + c1 + c0 + (if x5 = 0 then 1 else 0)

/-- One unrolled state of the `udiv` loop (rsqrt_fast.c lines 72-80).
`udivGo d v n` is the `(quotient, remainder)` pair after the first `n`
iterations of the C `for (int i = 31; i >= 0; i--)` loop, i.e. after
processing bit indices `31` down to `32 - n`. -/
def udivGo (dividend divisor : Nat) : Nat → Nat × Nat
  | 0 => (0, 0)
  | n + 1 =>
    let qr := udivGo dividend divisor n
    let r := ((qr.2 * 2) % 4294967296) ||| ((dividend / 2 ^ (31 - n)) % 2)
    if divisor ≤ r then (qr.1 ||| 2 ^ (31 - n), r - divisor) else (qr.1, r)

/-- Embedding of `udiv` (rsqrt_fast.c lines 64-83): restoring binary long
division; returns 0 on a zero divisor, else the quotient after all 32 loop
iterations. -/
def udiv (dividend divisor : Nat) : Nat :=
  if divisor = 0 then 0 else (udivGo dividend divisor 32).1

/-- One unrolled state of the `umod` loop (rsqrt_fast.c lines 92-99):
remainder after the first `n` iterations. -/
def umodGo (dividend divisor : Nat) : Nat → Nat
  | 0 => 0
  | n + 1 =>
    let r0 := umodGo dividend divisor n
    let r := ((r0 * 2) % 4294967296) ||| ((dividend / 2 ^ (31 - n)) % 2)
    if divisor ≤ r then r - divisor else r

/-- Embedding of `umod` (rsqrt_fast.c lines 85-102). -/
def umod (dividend divisor : Nat) : Nat :=
  if divisor = 0 then 0 else umodGo dividend divisor 32

/-- The `while (b)` loop of `umul` (rsqrt_fast.c lines 107-114), given
enough fuel.  Each step mirrors one iteration: conditionally accumulate
`result += a`, then `a <<= 1; b >>= 1`.  For `b < 2^fuel` the fuel never
runs out, so `umulGo 32` is exact on the 32-bit domain. -/
def umulGo : Nat → Nat → Nat → Nat → Nat
  | 0, _, _, result => result
  | fuel + 1, a, b, result =>
    if b = 0 then result
    else umulGo fuel ((a * 2) % 4294967296) (b / 2)
      (if b % 2 = 1 then (result + a) % 4294967296 else result)

/-- Embedding of `umul` (rsqrt_fast.c lines 105-115): shift-and-add
multiplication mod `2^32`. -/
def umul (a b : Nat) : Nat := umulGo 32 a b 0

/-- Embedding of `rsqrt_table` (rsqrt_fast.c lines 178-181): the 32-entry
reciprocal-square-root seed table in Q16 fixed point. -/
def rsqrt_table : List Nat :=
  [65536, 46341, 32768, 23170, 16384, 11585, 8192, 5793, 4096, 2896, 2048,
   1448, 1024, 724, 512, 362, 256, 181, 128, 90, 64, 45,
   32, 23, 16, 11, 8, 6, 4, 3, 2, 1]

/-- Embedding of `mul32x32` (rsqrt_fast.c lines 185-203): 32x32 -> 64-bit
multiplication from four 16x16 part products, returned as `(hi, lo)`. -/
def mul32x32 (a b : Nat) : Nat × Nat :=
  let a_lo := a % 65536
  let a_hi := a / 65536
  let b_lo := b % 65536
  let b_hi := b / 65536
  let p0 := (a_lo * b_lo) % 4294967296
  let p1 := (a_lo * b_hi) % 4294967296
  let p2 := (a_hi * b_lo) % 4294967296
  let p3 := (a_hi * b_hi) % 4294967296
  let mid := ((p0 / 65536) + (p1 % 65536) + (p2 % 65536)) % 4294967296
  let lo_res := (p0 % 65536) ||| ((mid * 65536) % 4294967296)
  let hi_res := (p3 + (p1 / 65536) + (p2 / 65536) + (mid / 65536)) % 4294967296
  (hi_res, lo_res)

/-- Embedding of `newton_step_q16_inline` (rsqrt_fast.c lines 205-239): one
fixed-point Newton iteration `y * (3/2 - x*y^2/2)` assembled from
`mul32x32` high/low words; `(3u << 16) - xy2` is uint32 subtraction, hence
the `+ 2^32 ... % 2^32` form. -/
def newton_step_q16_inline (y x : Nat) : Nat :=
  let y2 := mul32x32 y y
  let m1 := mul32x32 x y2.1
  let termA := (m1.2 * 65536) % 4294967296
  let m2 := mul32x32 x y2.2
  let termB := ((m2.1 * 65536) % 4294967296) ||| (m2.2 / 65536)
  let xy2 := (termA + termB) % 4294967296
  let term := (196608 + 4294967296 - xy2) % 4294967296
  let m3 := mul32x32 y term
  let lo_plus := (m3.2 + 65536) % 4294967296
  let hi_plus := (m3.1 + (if lo_plus < m3.2 then 1 else 0)) % 4294967296
  ((hi_plus * 32768) % 4294967296) ||| (lo_plus / 131072)

/-- The general (non-special-cased) path of `rsqrt` (rsqrt_fast.c lines
266-282): exponent extraction, table lookup, linear interpolation, one
Newton step.  Matches the C source for the inputs on which it is reached,
i.e. `0 < x < 0xFFFFFFFF`.  C uint32 subtractions `x - (1u << exp)` and
`y_base - ...` are written in wraparound form. -/
def rsqrt_core (x : Nat) : Nat :=
  let exp := 31 - clz x
  let y_base := rsqrt_table.getD exp 0
  let y_next := if exp < 31 then rsqrt_table.getD (exp + 1) 0 else 1
  let fraction :=
    if 16 ≤ exp then ((x + 4294967296 - 2 ^ exp) % 4294967296) / 2 ^ (exp - 16)
    else (((x + 4294967296 - 2 ^ exp) % 4294967296) * 2 ^ (16 - exp)) % 4294967296
  let y := (y_base + 4294967296 -
    umul ((y_base + 4294967296 - y_next) % 4294967296) fraction / 65536) % 4294967296
  newton_step_q16_inline y x

/-- Embedding of `rsqrt` (rsqrt_fast.c lines 260-283): the two special
cases, then the general path. -/
def rsqrt (x : Nat) : Nat :=
  if x = 0 then 4294967295
  else if x = 4294967295 then 1
  else rsqrt_core x

/-- Modelled from the spec (section 4.5): `n` is the real value
`2^16 / sqrt 2^e` rounded to the nearest integer, stated over integers by
squaring `n - 1/2 ≤ 2^16/sqrt 2^e < n + 1/2` (all sides nonnegative, so
squaring is faithful; no ties arise because `(2n+1)^2 * 2^e = 2^34` would
force an odd square to be a power of two). -/
def isNearestSeed (e n : Nat) : Prop :=
  (2 * n - 1) ^ 2 * 2 ^ e ≤ 2 ^ 34 ∧ 2 ^ 34 < (2 * n + 1) ^ 2 * 2 ^ e

instance (e n : Nat) : Decidable (isNearestSeed e n) := by
  unfold isNearestSeed; infer_instance

/-- Modelled from the spec (section 4.5): `n` is the floor of the real value
`2^16 / sqrt 2^e`, stated over integers by squaring `n ≤ 2^16/sqrt 2^e < n+1`. -/
def isFloorSeed (e n : Nat) : Prop :=
  n ^ 2 * 2 ^ e ≤ 2 ^ 32 ∧ 2 ^ 32 < (n + 1) ^ 2 * 2 ^ e

instance (e n : Nat) : Decidable (isFloorSeed e n) := by
  unfold isFloorSeed; infer_instance

/-- Key bridging fact: bitwise OR of a multiple of `2^k` with a value below
`2^k` is plain addition (the operands occupy disjoint bit ranges). -/
theorem two_pow_mul_lor_eq_add : ∀ (k m y : Nat), y < 2 ^ k → 2 ^ k * m ||| y = 2 ^ k * m + y := by
  intro k
  induction k with
  | zero =>
    intro m y hy
    have hy0 : y = 0 := by omega
    subst hy0
    simp
  | succ k ih =>
    intro m y hy
    have hb := Nat.bit_decomp y
    have hbv : 2 * Nat.div2 y + (Nat.bodd y).toNat = y := by
      rw [← Nat.bit_val]; exact hb
    have hp : 2 ^ (k + 1) = 2 * 2 ^ k := by rw [pow_succ]; ring
    have hd : Nat.div2 y < 2 ^ k := by
      rw [Nat.div2_val]; omega
    have h2 : 2 ^ (k + 1) * m = Nat.bit false (2 ^ k * m) := by
      rw [Nat.bit_val]
      simp only [Bool.toNat_false, Nat.add_zero, pow_succ]
      ring
    calc 2 ^ (k + 1) * m ||| y
        = Nat.bit false (2 ^ k * m) ||| Nat.bit (Nat.bodd y) (Nat.div2 y) := by
          rw [← h2, hb]
      _ = Nat.bit (false || Nat.bodd y) (2 ^ k * m ||| Nat.div2 y) := Nat.lor_bit ..
      _ = Nat.bit (Nat.bodd y) (2 ^ k * m + Nat.div2 y) := by
          rw [Bool.false_or, ih m _ hd]
      _ = 2 ^ (k + 1) * m + y := by
          rw [Nat.bit_val, hp, mul_assoc]
          omega

/-- Usable form of `two_pow_mul_lor_eq_add`: if `a` has its low `k` bits
clear and `b < 2^k`, then `a ||| b = a + b`. -/
theorem lor_eq_add_of_mod_eq_zero {k a b : Nat} (h1 : a % 2 ^ k = 0)
    (h2 : b < 2 ^ k) : a ||| b = a + b := by
  obtain ⟨m, hm⟩ := Nat.dvd_of_mod_eq_zero h1
  subst hm
  exact two_pow_mul_lor_eq_add k m b h2

set_option maxHeartbeats 1000000 in
/-- Branch analysis of the unrolled binary search in `clz`: value 32 at 0,
and for nonzero 32-bit `x` the returned count `r ≤ 31` brackets `x` between
`2^(31-r)` and `2^(32-r)`. -/
theorem clz_characterization (x : Nat) (hx : x < 4294967296) :
    (x = 0 → clz x = 32) ∧
    (0 < x → clz x ≤ 31 ∧ 2 ^ (31 - clz x) ≤ x ∧ x < 2 ^ (32 - clz x)) := by
  simp only [clz]
  split_ifs <;> constructor <;> intro h <;> omega

/-- Claim C6: for every nonzero 32-bit input `x`, `clz x` is the count of
leading zero bits, i.e. a value in `0..31` with
`2^(31 - clz x) ≤ x < 2^(32 - clz x)`; `clz 0 = 32`; and in particular
`clz 0 = 32`, `clz 1 = 31`, `clz 0xFFFFFFFF = 0`. -/
theorem clz_spec (x : Nat) (hx : x < 4294967296) :
    (0 < x → clz x ≤ 31 ∧ 2 ^ (31 - clz x) ≤ x ∧ x < 2 ^ (32 - clz x)) ∧
    clz 0 = 32 ∧ clz 1 = 31 ∧ clz 4294967295 = 0 :=
  ⟨(clz_characterization x hx).2, by decide, by decide, by decide⟩

/-- Witness for `clz_spec` at `x = 1`. -/
theorem clz_spec_witness :
    (0 < 1 → clz 1 ≤ 31 ∧ 2 ^ (31 - clz 1) ≤ 1 ∧ 1 < 2 ^ (32 - clz 1)) ∧
    clz 0 = 32 ∧ clz 1 = 31 ∧ clz 4294967295 = 0 :=
  clz_spec 1 (by norm_num)

/-- Claim C2: `rsqrt 0 = 0xFFFFFFFF`, `rsqrt 0xFFFFFFFF = 1`, and these are
the only special-cased inputs: every other input takes the general
table/interpolation/Newton path `rsqrt_core`. -/
theorem rsqrt_special_cases :
    rsqrt 0 = 4294967295 ∧ rsqrt 4294967295 = 1 ∧
    ∀ x : Nat, x ≠ 0 → x ≠ 4294967295 → rsqrt x = rsqrt_core x := by
  refine ⟨rfl, rfl, ?_⟩
  intro x h0 hm
  simp [rsqrt, h0, hm]

/-- Witness for `rsqrt_special_cases` at `x = 7`. -/
theorem rsqrt_special_cases_witness :
    rsqrt 0 = 4294967295 ∧ rsqrt 4294967295 = 1 ∧ rsqrt 7 = rsqrt_core 7 :=
  ⟨rsqrt_special_cases.1, rsqrt_special_cases.2.1,
    rsqrt_special_cases.2.2 7 (by norm_num) (by norm_num)⟩

/-- Claim C3 (refuting evaluation): monotonicity fails inside the open
interval: `5352 < 5353`, both interior, yet
`rsqrt 5352 = 893 < 894 = rsqrt 5353`, contradicting
`rsqrt x1 ≥ rsqrt x2` for `x1 < x2`. -/
theorem rsqrt_monotonicity_violation :
    0 < (5352 : Nat) ∧ (5352 : Nat) < 5353 ∧ (5353 : Nat) < 4294967295 ∧
    rsqrt 5352 = 893 ∧ rsqrt 5353 = 894 ∧ ¬ (rsqrt 5353 ≤ rsqrt 5352) := by
  decide

/-- Claim C7: at the exact powers of four 1, 4, 16, 256 the estimator is
within 4 units in the last place of the ideal Q16 values
65536, 32768, 16384, 4096. -/
theorem rsqrt_power_of_four_accuracy :
    ((rsqrt 1 : Int) - 65536).natAbs ≤ 4 ∧
    ((rsqrt 4 : Int) - 32768).natAbs ≤ 4 ∧
    ((rsqrt 16 : Int) - 16384).natAbs ≤ 4 ∧
    ((rsqrt 256 : Int) - 4096).natAbs ≤ 4 := by
  decide

/-- Claim C9 (counterexample): entry 19 of the seed table is 90, which is
not `2^16 / sqrt (2^19) ≈ 90.51` rounded to the nearest integer (that would
be 91). -/
theorem rsqrt_table_entry19_not_nearest :
    rsqrt_table.getD 19 0 = 90 ∧ ¬ isNearestSeed 19 (rsqrt_table.getD 19 0) := by
  decide

/-- Claim C9 (amended): the table is a fixed 32-entry constant with
`rsqrt_table[0] = 65536`, entries non-increasing with index, and every
entry except index 19 equal to `2^16 / sqrt (2^e)` rounded to nearest;
entry 19 is 90, the floor of that real value, one below the nearest
integer 91. -/
theorem rsqrt_table_spec_amended :
    rsqrt_table.getD 0 0 = 65536 ∧
    rsqrt_table.length = 32 ∧
    (∀ i, i < 31 → rsqrt_table.getD (i + 1) 0 ≤ rsqrt_table.getD i 0) ∧
    (∀ e, e < 32 → e ≠ 19 → isNearestSeed e (rsqrt_table.getD e 0)) ∧
    isFloorSeed 19 (rsqrt_table.getD 19 0) ∧
    isNearestSeed 19 (rsqrt_table.getD 19 0 + 1) := by
  refine ⟨rfl, rfl, by decide, by decide, by decide, by decide⟩

/-- Witness for `rsqrt_table_spec_amended` at indices 5 and 7. -/
theorem rsqrt_table_spec_amended_witness :
    rsqrt_table.getD 6 0 ≤ rsqrt_table.getD 5 0 ∧
    isNearestSeed 7 (rsqrt_table.getD 7 0) :=
  ⟨rsqrt_table_spec_amended.2.2.1 5 (by norm_num),
   rsqrt_table_spec_amended.2.2.2.1 7 (by norm_num) (by norm_num)⟩

/-- Claim C10 (counterexample): at `x = 1` the exponent is
`31 - clz 1 = 0 < 16` and the left-shift amount is `16 - 0 = 16`, which
does not lie in `[0, 15]` as claimed. -/
theorem rsqrt_shift_range_counterexample :
    0 < (1 : Nat) ∧ (1 : Nat) < 4294967295 ∧ 31 - clz 1 < 16 ∧
    ¬ (16 - (31 - clz 1) ≤ 15) := by
  decide

/-- Claim C10 (amended): for interior inputs the exponent `31 - clz x` lies
in `[0, 31]` (in particular `clz x ≤ 31`, so the C uint32 subtraction does
not wrap), both table indices used are in bounds, and the fraction shift
amounts are `exp - 16 ∈ [0, 15]` when `exp ≥ 16` and `16 - exp ∈ [1, 16]`
when `exp < 16` — all shift amounts below 32, so no out-of-range index or
shift occurs. -/
theorem rsqrt_shift_index_safety (x : Nat) (h0 : 0 < x) (h1 : x < 4294967295) :
    clz x ≤ 31 ∧
    31 - clz x ≤ 31 ∧
    31 - clz x < rsqrt_table.length ∧
    (31 - clz x < 31 → 31 - clz x + 1 < rsqrt_table.length) ∧
    (16 ≤ 31 - clz x → 31 - clz x - 16 ≤ 15) ∧
    (31 - clz x < 16 → 1 ≤ 16 - (31 - clz x) ∧ 16 - (31 - clz x) ≤ 16) ∧
    31 - clz x - 16 < 32 ∧ 16 - (31 - clz x) < 32 := by
  have hc := (clz_characterization x (by omega)).2 h0
  have hlen : rsqrt_table.length = 32 := rfl
  refine ⟨hc.1, by omega, by omega, by omega, by omega, by omega, by omega, by omega⟩

/-- Witness for `rsqrt_shift_index_safety` at `x = 700`. -/
theorem rsqrt_shift_index_safety_witness :
    clz 700 ≤ 31 ∧
    31 - clz 700 ≤ 31 ∧
    31 - clz 700 < rsqrt_table.length ∧
    (31 - clz 700 < 31 → 31 - clz 700 + 1 < rsqrt_table.length) ∧
    (16 ≤ 31 - clz 700 → 31 - clz 700 - 16 ≤ 15) ∧
    (31 - clz 700 < 16 → 1 ≤ 16 - (31 - clz 700) ∧ 16 - (31 - clz 700) ≤ 16) ∧
    31 - clz 700 - 16 < 32 ∧ 16 - (31 - clz 700) < 32 :=
  rsqrt_shift_index_safety 700 (by norm_num) (by norm_num)

/-- Commuted form of the bridging fact: small value OR a multiple of `2^k`. -/
theorem lor_eq_add_of_lt {k a b : Nat} (h1 : a < 2 ^ k) (h2 : b % 2 ^ k = 0) :
    a ||| b = a + b := by
  rw [Nat.lor_comm, lor_eq_add_of_mod_eq_zero h2 h1, Nat.add_comm]

/-- Claim C1: for all 32-bit `a, b`, `mul32x32 a b = (hi, lo)` satisfies
`hi * 2^32 + lo = a * b` exactly — the carry propagation through the
16-bit part products loses nothing. -/
theorem mul32x32_exact (a b : Nat) (ha : a < 4294967296) (hb : b < 4294967296) :
    (mul32x32 a b).1 * 4294967296 + (mul32x32 a b).2 = a * b := by
  have hp0 : a % 65536 * (b % 65536) ≤ 65535 * 65535 :=
    Nat.mul_le_mul (by omega) (by omega)
  have hp1 : a % 65536 * (b / 65536) ≤ 65535 * 65535 :=
    Nat.mul_le_mul (by omega) (by omega)
  have hp2 : a / 65536 * (b % 65536) ≤ 65535 * 65535 :=
    Nat.mul_le_mul (by omega) (by omega)
  have hp3 : a / 65536 * (b / 65536) ≤ 65535 * 65535 :=
    Nat.mul_le_mul (by omega) (by omega)
  have key : a * b =
      a / 65536 * (b / 65536) * 4294967296 + a % 65536 * (b / 65536) * 65536 +
      a / 65536 * (b % 65536) * 65536 + a % 65536 * (b % 65536) := by
    conv_lhs => rw [← Nat.div_add_mod a 65536, ← Nat.div_add_mod b 65536]
    ring
  simp only [mul32x32]
  rw [key]
  generalize hP0 : a % 65536 * (b % 65536) = P0 at *
  generalize hP1 : a % 65536 * (b / 65536) = P1 at *
  generalize hP2 : a / 65536 * (b % 65536) = P2 at *
  generalize hP3 : a / 65536 * (b / 65536) = P3 at *
  rw [Nat.mod_eq_of_lt (show P0 < 4294967296 by omega),
      Nat.mod_eq_of_lt (show P1 < 4294967296 by omega),
      Nat.mod_eq_of_lt (show P2 < 4294967296 by omega),
      Nat.mod_eq_of_lt (show P3 < 4294967296 by omega),
      Nat.mod_eq_of_lt (show P0 / 65536 + P1 % 65536 + P2 % 65536 < 4294967296 by omega),
      lor_eq_add_of_lt (k := 16) (by omega)
        (by rw [show (2:Nat) ^ 16 = 65536 from by norm_num,
                Nat.mod_mod_of_dvd _ (by norm_num : (65536:Nat) ∣ 4294967296),
                Nat.mul_mod_left])]
  omega

/-- Witness for `mul32x32_exact` at `a = b = 0xFFFFFFFF`. -/
theorem mul32x32_exact_witness :
    (mul32x32 4294967295 4294967295).1 * 4294967296 +
      (mul32x32 4294967295 4294967295).2 = 4294967295 * 4294967295 :=
  mul32x32_exact 4294967295 4294967295 (by norm_num) (by norm_num)

/-- Claim C8: a zero divisor is never an error: both `udiv` and `umod`
return the defensive default 0. -/
theorem udiv_umod_zero_divisor (a : Nat) (ha : a < 4294967296) :
    udiv a 0 = 0 ∧ umod a 0 = 0 :=
  ⟨by simp [udiv], by simp [umod]⟩

/-- Witness for `udiv_umod_zero_divisor` at `a = 12345`. -/
theorem udiv_umod_zero_divisor_witness : udiv 12345 0 = 0 ∧ umod 12345 0 = 0 :=
  udiv_umod_zero_divisor 12345 (by norm_num)

/-- How quotient and remainder by `v` evolve when one more bit `b` is
shifted in: from `M` to `M' = 2M + b`. -/
theorem euclid_double_step (v M M' b : Nat) (hv : 0 < v) (hb : b < 2)
    (hM' : M' = 2 * M + b) :
    (v ≤ 2 * (M % v) + b →
      M' / v = 2 * (M / v) + 1 ∧ M' % v = 2 * (M % v) + b - v) ∧
    (2 * (M % v) + b < v →
      M' / v = 2 * (M / v) ∧ M' % v = 2 * (M % v) + b) := by
  have hQR := Nat.div_add_mod M v
  have hrv : M % v < v := Nat.mod_lt _ hv
  constructor
  · intro hge
    refine (Nat.div_mod_unique hv).2 ⟨?_, by omega⟩
    have hexp : v * (2 * (M / v) + 1) = 2 * (v * (M / v)) + v := by ring
    rw [hexp]
    omega
  · intro hlt
    refine (Nat.div_mod_unique hv).2 ⟨?_, by omega⟩
    have hexp : v * (2 * (M / v)) = 2 * (v * (M / v)) := by ring
    rw [hexp]
    omega

/-- One iteration of the restoring-division loop on abstract state: shifting
bit `b` into the running remainder of `M` yields the quotient/remainder
state of `M' = 2M + b`, the new quotient bit placed at position `i`. -/
theorem div_step_state (v M M' b i : Nat) (hv : 0 < v) (hb : b < 2)
    (hM' : M' = 2 * M + b) (hM : M < 2147483648) :
    (if v ≤ ((M % v * 2) % 4294967296) ||| b
     then (M / v * 2 ^ (i + 1) ||| 2 ^ i, (((M % v * 2) % 4294967296) ||| b) - v)
     else (M / v * 2 ^ (i + 1), ((M % v * 2) % 4294967296) ||| b))
    = (M' / v * 2 ^ i, M' % v) := by
  have hrv : M % v < v := Nat.mod_lt _ hv
  have hrM : M % v ≤ M := Nat.mod_le _ _
  have hmodv : (M % v * 2) % 4294967296 = M % v * 2 := Nat.mod_eq_of_lt (by omega)
  have hlor : (M % v * 2) ||| b = M % v * 2 + b :=
    lor_eq_add_of_mod_eq_zero (k := 1) (by omega) (by omega)
  rw [hmodv, hlor]
  have hes := euclid_double_step v M M' b hv hb hM'
  by_cases hc : v ≤ M % v * 2 + b
  · obtain ⟨hq, hr⟩ := hes.1 (by omega)
    rw [if_pos hc, hq, hr]
    have hql : M / v * 2 ^ (i + 1) ||| 2 ^ i = M / v * 2 ^ (i + 1) + 2 ^ i := by
      rw [Nat.mul_comm]
      apply two_pow_mul_lor_eq_add (i + 1) (M / v)
      exact Nat.pow_lt_pow_right (by norm_num) (Nat.lt_succ_self i)
    rw [hql]
    simp only [Prod.mk.injEq]
    constructor
    · rw [pow_succ]; ring
    · omega
  · obtain ⟨hq, hr⟩ := hes.2 (by omega)
    rw [if_neg hc, hq, hr]
    simp only [Prod.mk.injEq]
    constructor
    · rw [pow_succ]; ring
    · omega

/-- Remainder-only version of `div_step_state`, for the `umod` loop. -/
theorem mod_step_state (v M M' b : Nat) (hv : 0 < v) (hb : b < 2)
    (hM' : M' = 2 * M + b) (hM : M < 2147483648) :
    (if v ≤ ((M % v * 2) % 4294967296) ||| b
     then (((M % v * 2) % 4294967296) ||| b) - v
     else ((M % v * 2) % 4294967296) ||| b)
    = M' % v := by
  have hrv : M % v < v := Nat.mod_lt _ hv
  have hrM : M % v ≤ M := Nat.mod_le _ _
  have hmodv : (M % v * 2) % 4294967296 = M % v * 2 := Nat.mod_eq_of_lt (by omega)
  have hlor : (M % v * 2) ||| b = M % v * 2 + b :=
    lor_eq_add_of_mod_eq_zero (k := 1) (by omega) (by omega)
  rw [hmodv, hlor]
  have hes := euclid_double_step v M M' b hv hb hM'
  by_cases hc : v ≤ M % v * 2 + b
  · obtain ⟨_, hr⟩ := hes.1 (by omega)
    rw [if_pos hc, hr]
    omega
  · obtain ⟨_, hr⟩ := hes.2 (by omega)
    rw [if_neg hc, hr]
    omega

/-- Loop invariant for `udiv`: after `n` iterations the state is the exact
quotient/remainder of the top `n` bits of the dividend. -/
theorem udivGo_invariant (d v : Nat) (hd : d < 4294967296) (hv : 0 < v) :
    ∀ n, n ≤ 32 →
      udivGo d v n = (d / 2 ^ (32 - n) / v * 2 ^ (32 - n), d / 2 ^ (32 - n) % v) := by
  intro n
  induction n with
  | zero =>
    intro _
    have hdz : d / 2 ^ (32 - 0) = 0 := Nat.div_eq_of_lt (by omega)
    rw [hdz]
    simp [udivGo]
  | succ n ih =>
    intro hn
    have hi : 32 - n = (31 - n) + 1 := by omega
    have hi2 : 32 - (n + 1) = 31 - n := by omega
    have hMM : d / 2 ^ (31 - n) / 2 = d / 2 ^ (32 - n) := by
      rw [Nat.div_div_eq_div_mul, hi, pow_succ]
    have hMlt : d / 2 ^ (32 - n) < 2147483648 := by
      have h1 : d / 2 ^ (32 - n) ≤ d / 2 :=
        Nat.div_le_div_left
          (by calc (2:Nat) = 2 ^ 1 := by norm_num
                _ ≤ 2 ^ (32 - n) := Nat.pow_le_pow_right (by norm_num) (by omega))
          (by norm_num)
      omega
    have hM'eq : d / 2 ^ (31 - n) = 2 * (d / 2 ^ (32 - n)) + d / 2 ^ (31 - n) % 2 := by
      conv_lhs => rw [← Nat.div_add_mod (d / 2 ^ (31 - n)) 2]
      rw [hMM]
    simp only [udivGo]
    rw [ih (by omega), hi2]
    rw [hi] at hMlt hM'eq ⊢
    exact div_step_state v (d / 2 ^ ((31 - n) + 1)) (d / 2 ^ (31 - n))
      (d / 2 ^ (31 - n) % 2) (31 - n) hv (Nat.mod_lt _ (by norm_num)) hM'eq hMlt

/-- Loop invariant for `umod`: after `n` iterations the running remainder is
the exact remainder of the top `n` bits of the dividend. -/
theorem umodGo_invariant (d v : Nat) (hd : d < 4294967296) (hv : 0 < v) :
    ∀ n, n ≤ 32 → umodGo d v n = d / 2 ^ (32 - n) % v := by
  intro n
  induction n with
  | zero =>
    intro _
    have hdz : d / 2 ^ (32 - 0) = 0 := Nat.div_eq_of_lt (by omega)
    rw [hdz]
    simp [umodGo]
  | succ n ih =>
    intro hn
    have hi : 32 - n = (31 - n) + 1 := by omega
    have hi2 : 32 - (n + 1) = 31 - n := by omega
    have hMM : d / 2 ^ (31 - n) / 2 = d / 2 ^ (32 - n) := by
      rw [Nat.div_div_eq_div_mul, hi, pow_succ]
    have hMlt : d / 2 ^ (32 - n) < 2147483648 := by
      have h1 : d / 2 ^ (32 - n) ≤ d / 2 :=
        Nat.div_le_div_left
          (by calc (2:Nat) = 2 ^ 1 := by norm_num
                _ ≤ 2 ^ (32 - n) := Nat.pow_le_pow_right (by norm_num) (by omega))
          (by norm_num)
      omega
    have hM'eq : d / 2 ^ (31 - n) = 2 * (d / 2 ^ (32 - n)) + d / 2 ^ (31 - n) % 2 := by
      conv_lhs => rw [← Nat.div_add_mod (d / 2 ^ (31 - n)) 2]
      rw [hMM]
    simp only [umodGo]
    rw [ih (by omega), hi2]
    rw [hi] at hMlt hM'eq ⊢
    exact mod_step_state v (d / 2 ^ ((31 - n) + 1)) (d / 2 ^ (31 - n))
      (d / 2 ^ (31 - n) % 2) hv (Nat.mod_lt _ (by norm_num)) hM'eq hMlt

/-- Claim C4: for every 32-bit dividend `a` and nonzero 32-bit divisor `b`,
`udiv a b * b + umod a b = a`, and `udiv`/`umod` agree with native floor
division and modulo. -/
theorem udiv_umod_correct (a b : Nat) (ha : a < 4294967296) (hb0 : 0 < b)
    (hb : b < 4294967296) :
    udiv a b * b + umod a b = a ∧ udiv a b = a / b ∧ umod a b = a % b := by
  have hne : b ≠ 0 := by omega
  have h1 : udiv a b = a / b := by
    rw [udiv, if_neg hne, udivGo_invariant a b ha hb0 32 (by norm_num)]
    norm_num
  have h2 : umod a b = a % b := by
    rw [umod, if_neg hne, umodGo_invariant a b ha hb0 32 (by norm_num)]
    norm_num
  exact ⟨by rw [h1, h2]; exact Nat.div_add_mod' a b, h1, h2⟩

/-- Witness for `udiv_umod_correct` at `a = 1000`, `b = 7`. -/
theorem udiv_umod_correct_witness :
    udiv 1000 7 * 7 + umod 1000 7 = 1000 ∧
    udiv 1000 7 = 1000 / 7 ∧ umod 1000 7 = 1000 % 7 :=
  udiv_umod_correct 1000 7 (by norm_num) (by norm_num) (by norm_num)

/-- Loop invariant for `umul`: with enough fuel for all bits of `b`, the
shift-and-add loop computes `(result + a * b) mod 2^32`. -/
theorem umulGo_eq : ∀ (fuel a b r : Nat), b < 2 ^ fuel → r < 4294967296 →
    umulGo fuel a b r = (r + a * b) % 4294967296 := by
  intro fuel
  induction fuel with
  | zero =>
    intro a b r hb hr
    have hb0 : b = 0 := by omega
    subst hb0
    simp [umulGo, Nat.mod_eq_of_lt hr]
  | succ fuel ih =>
    intro a b r hb hr
    by_cases hb0 : b = 0
    · subst hb0
      simp [umulGo, Nat.mod_eq_of_lt hr]
    · have hstep : umulGo (fuel + 1) a b r =
          umulGo fuel ((a * 2) % 4294967296) (b / 2)
            (if b % 2 = 1 then (r + a) % 4294967296 else r) := by
        simp [umulGo, hb0]
      have hb2 : b / 2 < 2 ^ fuel := by
        have h2 : 2 ^ (fuel + 1) = 2 * 2 ^ fuel := by rw [pow_succ]; ring
        omega
      have hr' : (if b % 2 = 1 then (r + a) % 4294967296 else r) < 4294967296 := by
        split
        · exact Nat.mod_lt _ (by norm_num)
        · exact hr
      rw [hstep, ih _ _ _ hb2 hr']
      have hmul : (a * 2 % 4294967296) * (b / 2) ≡ a * 2 * (b / 2) [MOD 4294967296] :=
        (Nat.mod_modEq (a * 2) 4294967296).mul_right (b / 2)
      have hres : (if b % 2 = 1 then (r + a) % 4294967296 else r) ≡
          r + a * (b % 2) [MOD 4294967296] := by
        split
        next h => rw [h, Nat.mul_one]; exact Nat.mod_modEq (r + a) 4294967296
        next h =>
          have h0 : b % 2 = 0 := by omega
          rw [h0, Nat.mul_zero, Nat.add_zero]
      have hsum := hres.add hmul
      have hid : r + a * (b % 2) + a * 2 * (b / 2) = r + a * b := by
        conv_rhs => rw [show b = 2 * (b / 2) + b % 2 by omega]
        ring
      rw [hid] at hsum
      exact hsum

/-- Claim C5: for all 32-bit `a, b`, the shift-and-add `umul` equals
`(a * b) mod 2^32`, i.e. native 32-bit wraparound multiplication. -/
theorem umul_correct (a b : Nat) (ha : a < 4294967296) (hb : b < 4294967296) :
    umul a b = a * b % 4294967296 := by
  rw [umul, umulGo_eq 32 a b 0 (by omega) (by norm_num), Nat.zero_add]

/-- Witness for `umul_correct` at `a = 123456789`, `b = 987654321`. -/
theorem umul_correct_witness :
    umul 123456789 987654321 = 123456789 * 987654321 % 4294967296 :=
  umul_correct 123456789 987654321 (by norm_num) (by norm_num)
